import Mathlib

/-!
Verification of the STRN distributed gradient-aggregation layer.

The definitions below are a shallow embedding of the coordination core of
`new_models/ps/training_sgd.py` and `new_models/all_reduce/training_sgd_allreduce.py`:

* the greedy parameter-to-shard partitioner (`main`, lines 719-739 resp. 600-620),
* the `ParameterServer.ps_computing` handler (lines 245-313) as an explicit
  state-transition function with future identifiers,
* the per-step worker fan-out / positional model overwrite (lines 462-478),
* the ring reduce-scatter / all-gather exchange
  (`Worker.run_worker`, allreduce file lines 338-363).

Tensors are modelled as integer vectors (`List ℤ`) with element-wise addition;
the optimizer is opaque in the source (`torch.optim`) and is therefore a
function parameter.  Timing statistics and logging are plumbing outside the
specified core and are omitted.
-/

namespace STRN

/-! ## Shard partitioner (training_sgd.py `main`, lines 719-739) -/

/-- Embedding of `np.argmin` on a list of naturals: index of the first
occurrence of the minimum (0 on the empty list). -/
def argminIdx : List ℕ → ℕ
  | [] => 0
  | [_] => 0
  | x :: y :: xs =>
    if x ≤ (y :: xs).getD (argminIdx (y :: xs)) 0 then 0 else argminIdx (y :: xs) + 1

theorem argminIdx_lt : (l : List ℕ) → l ≠ [] → argminIdx l < l.length
  | [], h => absurd rfl h
  | [_], _ => by simp [argminIdx]
  | x :: y :: xs, _ => by
    rw [argminIdx]
    split
    · simp
    · have := argminIdx_lt (y :: xs) (by simp)
      simpa [Nat.succ_lt_succ_iff] using this

theorem argminIdx_le : (l : List ℕ) → ∀ j, j < l.length → l.getD (argminIdx l) 0 ≤ l.getD j 0
  | [], j, hj => by simp at hj
  | [x], j, hj => by
    have : j = 0 := by simpa using Nat.lt_one_iff.mp (by simpa using hj)
    subst this
    simp [argminIdx]
  | x :: y :: xs, j, hj => by
    by_cases hx : x ≤ (y :: xs).getD (argminIdx (y :: xs)) 0
    · rw [argminIdx, if_pos hx]
      cases j with
      | zero => simp
      | succ j' =>
        simp only [List.getD_cons_zero, List.getD_cons_succ]
        exact le_trans hx (argminIdx_le (y :: xs) j' (by simpa using hj))
    · rw [argminIdx, if_neg hx]
      cases j with
      | zero =>
        simp only [List.getD_cons_succ, List.getD_cons_zero]
        exact le_of_lt (lt_of_not_le hx)
      | succ j' =>
        simp only [List.getD_cons_succ]
        exact argminIdx_le (y :: xs) j' (by simpa using hj)

theorem argminIdx_first : (l : List ℕ) → ∀ j, j < argminIdx l →
    l.getD (argminIdx l) 0 < l.getD j 0
  | [], j, hj => by simp [argminIdx] at hj
  | [x], j, hj => by simp [argminIdx] at hj
  | x :: y :: xs, j, hj => by
    by_cases hx : x ≤ (y :: xs).getD (argminIdx (y :: xs)) 0
    · rw [argminIdx, if_pos hx] at hj
      omega
    · rw [argminIdx, if_neg hx] at hj ⊢
      cases j with
      | zero =>
        simp only [List.getD_cons_succ, List.getD_cons_zero]
        exact lt_of_not_le hx
      | succ j' =>
        simp only [List.getD_cons_succ]
        exact argminIdx_first (y :: xs) j' (by omega)

/-- State of the parameter-partitioning loop in `main` (lines 721-735):
`loads` is `ps_param_nums`, `shards` is `ps_param_lists` (each entry keeps the
parameter key together with its element count), `psIdx` is `param_ps_idx`
and `locIdx` is `param_loc_idx` (Python dicts modelled as partial maps). -/
structure PartState (κ : Type) where
  loads : List ℕ
  shards : List (List (κ × ℕ))
  psIdx : κ → Option ℕ
  locIdx : κ → Option ℕ

/-- One iteration of the partition loop (lines 729-735):
`idx = np.argmin(ps_param_nums)`; `param_ps_idx[key] = idx`;
`param_loc_idx[key] = len(ps_param_lists[idx])`;
`ps_param_nums[idx] += numel`; `ps_param_lists[idx].append(...)`. -/
def assignOne {κ : Type} [DecidableEq κ] (st : PartState κ) (item : κ × ℕ) : PartState κ :=
  { loads := st.loads.set (argminIdx st.loads) (st.loads.getD (argminIdx st.loads) 0 + item.2)
    shards := st.shards.set (argminIdx st.loads)
      (st.shards.getD (argminIdx st.loads) [] ++ [item])
    psIdx := fun k => if k = item.1 then some (argminIdx st.loads) else st.psIdx k
    locIdx := fun k =>
      if k = item.1 then some (st.shards.getD (argminIdx st.loads) []).length else st.locIdx k }

/-- Initial partition state (lines 721-724): `N` empty shards with zero loads. -/
def initPart (κ : Type) (N : ℕ) : PartState κ :=
  { loads := List.replicate N 0
    shards := List.replicate N []
    psIdx := fun _ => none
    locIdx := fun _ => none }

/-- Embedding of `sorted(param_numel.items(), key=lambda x: x[1], reverse=True)`
(line 728): stable sort by element count, descending. -/
def sortDesc {κ : Type} (items : List (κ × ℕ)) : List (κ × ℕ) :=
  items.mergeSort (fun a b => b.2 ≤ a.2)

/-- The whole partitioning phase of `main` (lines 725-735): sort the
(name, element count) pairs descending and run the greedy loop. -/
def partitionParams {κ : Type} [DecidableEq κ] (N : ℕ) (items : List (κ × ℕ)) : PartState κ :=
  (sortDesc items).foldl assignOne (initPart κ N)

theorem assignOne_loads_length {κ : Type} [DecidableEq κ] (st : PartState κ) (item : κ × ℕ) :
    (assignOne st item).loads.length = st.loads.length := by
  simp [assignOne]

theorem assignOne_shards_length {κ : Type} [DecidableEq κ] (st : PartState κ) (item : κ × ℕ) :
    (assignOne st item).shards.length = st.shards.length := by
  simp [assignOne]

theorem foldl_assignOne_loads_length {κ : Type} [DecidableEq κ] :
    ∀ (L : List (κ × ℕ)) (st : PartState κ),
      (L.foldl assignOne st).loads.length = st.loads.length
  | [], _ => rfl
  | it :: L, st => by
    rw [List.foldl_cons, foldl_assignOne_loads_length L, assignOne_loads_length]

theorem foldl_assignOne_shards_length {κ : Type} [DecidableEq κ] :
    ∀ (L : List (κ × ℕ)) (st : PartState κ),
      (L.foldl assignOne st).shards.length = st.shards.length
  | [], _ => rfl
  | it :: L, st => by
    rw [List.foldl_cons, foldl_assignOne_shards_length L, assignOne_shards_length]

theorem getD_set_self {β : Type} (l : List β) (i : ℕ) (v d : β) (h : i < l.length) :
    (l.set i v).getD i d = v := by
  simp [List.getD_eq_getElem?_getD, List.getElem?_set_self h]

theorem getD_set_ne {β : Type} (l : List β) {i j : ℕ} (v d : β) (h : i ≠ j) :
    (l.set i v).getD j d = l.getD j d := by
  simp [List.getD_eq_getElem?_getD, List.getElem?_set_ne h]

theorem getD_replicate_zero (N i : ℕ) : (List.replicate N (0 : ℕ)).getD i 0 = 0 := by
  simp only [List.getD_eq_getElem?_getD, List.getElem?_replicate]
  split <;> rfl

/-- Shard loads are pairwise within `M` of each other. -/
def BalancedBy (M : ℕ) (loads : List ℕ) : Prop :=
  ∀ i j, i < loads.length → j < loads.length → loads.getD i 0 ≤ loads.getD j 0 + M

theorem balancedBy_assignOne {κ : Type} [DecidableEq κ] {M : ℕ} {st : PartState κ}
    {item : κ × ℕ} (hb : BalancedBy M st.loads) (hx : item.2 ≤ M) :
    BalancedBy M (assignOne st item).loads := by
  intro i j hi hj
  have hlen : (assignOne st item).loads.length = st.loads.length := assignOne_loads_length ..
  rw [hlen] at hi hj
  have hne : st.loads ≠ [] := by
    intro h
    rw [h] at hi
    simp at hi
  have ha : argminIdx st.loads < st.loads.length := argminIdx_lt _ hne
  show (st.loads.set _ _).getD i 0 ≤ (st.loads.set _ _).getD j 0 + M
  by_cases hia : i = argminIdx st.loads <;> by_cases hja : j = argminIdx st.loads
  · subst hia; subst hja; omega
  · subst hia
    rw [getD_set_self _ _ _ _ ha, getD_set_ne _ _ _ (fun h => hja h.symm)]
    have := argminIdx_le st.loads j hj
    omega
  · subst hja
    rw [getD_set_self _ _ _ _ ha, getD_set_ne _ _ _ (fun h => hia h.symm)]
    have := hb i (argminIdx st.loads) hi ha
    omega
  · rw [getD_set_ne _ _ _ (fun h => hia h.symm), getD_set_ne _ _ _ (fun h => hja h.symm)]
    exact hb i j hi hj

theorem balancedBy_foldl {κ : Type} [DecidableEq κ] {M : ℕ} :
    ∀ (L : List (κ × ℕ)) (st : PartState κ), (∀ it ∈ L, it.2 ≤ M) →
      BalancedBy M st.loads → BalancedBy M ((L.foldl assignOne st).loads)
  | [], _, _, hb => hb
  | it :: L, st, hle, hb => by
    rw [List.foldl_cons]
    exact balancedBy_foldl L _ (fun x hx => hle x (List.mem_cons_of_mem _ hx))
      (balancedBy_assignOne hb (hle it (List.mem_cons_self ..)))

theorem le_foldr_max_of_mem : ∀ (l : List ℕ) (x : ℕ), x ∈ l → x ≤ l.foldr max 0
  | a :: l, x, hx => by
    rcases List.mem_cons.mp hx with h | h
    · subst h
      exact le_max_left _ _
    · exact le_trans (le_foldr_max_of_mem l x h) (le_max_right _ _)

theorem join_set_getD_append {β : Type} :
    ∀ (l : List (List β)) (i : ℕ) (x : β), i < l.length →
      List.Perm (l.set i (l.getD i [] ++ [x])).flatten (l.flatten ++ [x])
  | [], i, x, h => by simp at h
  | a :: ls, 0, x, _ => by
    simp only [List.getD_cons_zero, List.set_cons_zero, List.flatten_cons, List.append_assoc]
    exact List.Perm.append_left a List.perm_append_comm
  | a :: ls, i + 1, x, h => by
    simp only [List.getD_cons_succ, List.set_cons_succ, List.flatten_cons, ← List.append_assoc]
    have hrec := join_set_getD_append ls i x (by simpa using h)
    have h2 : List.Perm (a ++ (ls.set i (ls.getD i [] ++ [x])).flatten)
        (a ++ (ls.flatten ++ [x])) := List.Perm.append_left a hrec
    simpa [List.append_assoc] using h2

theorem foldl_assignOne_join_perm {κ : Type} [DecidableEq κ] :
    ∀ (L : List (κ × ℕ)) (st : PartState κ),
      st.loads.length = st.shards.length → st.loads ≠ [] →
      List.Perm (L.foldl assignOne st).shards.flatten (st.shards.flatten ++ L)
  | [], st, _, _ => by simp
  | it :: L, st, hlen, hne => by
    rw [List.foldl_cons]
    have ha : argminIdx st.loads < st.shards.length := hlen ▸ argminIdx_lt _ hne
    have h1 : List.Perm (assignOne st it).shards.flatten (st.shards.flatten ++ [it]) :=
      join_set_getD_append st.shards _ it ha
    have hlen2 : (assignOne st it).loads.length = (assignOne st it).shards.length := by
      rw [assignOne_loads_length, assignOne_shards_length]
      exact hlen
    have hne2 : (assignOne st it).loads ≠ [] := by
      have : (assignOne st it).loads.length = st.loads.length := assignOne_loads_length ..
      intro h
      rw [h] at this
      exact hne (List.eq_nil_of_length_eq_zero this.symm)
    have hrec := foldl_assignOne_join_perm L _ hlen2 hne2
    have h2 : List.Perm ((assignOne st it).shards.flatten ++ L)
        ((st.shards.flatten ++ [it]) ++ L) := List.Perm.append_right L h1
    simpa using hrec.trans h2

theorem getD_eq_get {β : Type} (l : List β) (i : ℕ) (d : β) (h : i < l.length) :
    l.getD i d = l.get ⟨i, h⟩ := by
  simp [List.getD_eq_getElem?_getD, List.getElem?_eq_getElem h]

/-- Round-trip coherence between the per-name lookup maps and the shard lists:
every stored entry is found back by the lookup, and every lookup hit points at
a real entry carrying that key. -/
structure LookupInv {κ : Type} (st : PartState κ) : Prop where
  pos : ∀ (i : ℕ) (hi : i < st.shards.length) (p : ℕ) (hp : p < st.shards[i].length),
    st.psIdx (st.shards[i][p]).1 = some i ∧ st.locIdx (st.shards[i][p]).1 = some p
  look : ∀ k i p, st.psIdx k = some i → st.locIdx k = some p →
    ∃ (hi : i < st.shards.length), ∃ (hp : p < st.shards[i].length), (st.shards[i][p]).1 = k

theorem lookupInv_assignOne {κ : Type} [DecidableEq κ] {st : PartState κ} {item : κ × ℕ}
    (hlen : st.loads.length = st.shards.length) (hne : st.loads ≠ [])
    (inv : LookupInv st) (hfresh : st.psIdx item.1 = none) :
    LookupInv (assignOne st item) := by
  have ha : argminIdx st.loads < st.shards.length := hlen ▸ argminIdx_lt _ hne
  have hkey : ∀ (i : ℕ) (hi : i < st.shards.length) (p : ℕ) (hp : p < st.shards[i].length),
      (st.shards[i][p]).1 ≠ item.1 := by
    intro i hi p hp hcontra
    have := (inv.pos i hi p hp).1
    rw [hcontra, hfresh] at this
    exact Option.noConfusion this
  have hgetD : st.shards.getD (argminIdx st.loads) [] = st.shards[argminIdx st.loads] := by
    rw [getD_eq_get _ _ _ ha]
    simp
  constructor
  · intro i hi p hp
    have hi' : i < st.shards.length := by
      simpa [assignOne] using hi
    by_cases hia : i = argminIdx st.loads
    · subst hia
      have hset : (assignOne st item).shards[argminIdx st.loads] =
          st.shards[argminIdx st.loads] ++ [item] := by
        show (st.shards.set _ _)[argminIdx st.loads] = _
        rw [List.getElem_set_self]
        rw [hgetD]
      rw [hset] at hp
      simp only [List.length_append, List.length_singleton] at hp
      by_cases hpl : p < st.shards[argminIdx st.loads].length
      · have hentry : (assignOne st item).shards[argminIdx st.loads][p] =
            st.shards[argminIdx st.loads][p] := by
          simp only [hset]
          exact List.getElem_append_left hpl
        rw [hentry]
        have hne2 := hkey _ hi' p hpl
        constructor
        · show (if (st.shards[argminIdx st.loads][p]).1 = item.1 then _ else st.psIdx _) = _
          rw [if_neg hne2]
          exact (inv.pos _ hi' p hpl).1
        · show (if (st.shards[argminIdx st.loads][p]).1 = item.1 then _ else st.locIdx _) = _
          rw [if_neg hne2]
          exact (inv.pos _ hi' p hpl).2
      · have hpe : p = st.shards[argminIdx st.loads].length := by omega
        have hentry : (assignOne st item).shards[argminIdx st.loads][p] = item := by
          simp only [hset]
          exact List.getElem_concat_length _ _ _ hpe _
        rw [hentry]
        constructor
        · show (if item.1 = item.1 then some (argminIdx st.loads) else _) = _
          rw [if_pos rfl]
        · show (if item.1 = item.1 then some (st.shards.getD (argminIdx st.loads) []).length
              else _) = _
          rw [if_pos rfl, hgetD, hpe]
    · have hset : (assignOne st item).shards[i] = st.shards[i] := by
        show (st.shards.set _ _)[i] = _
        exact List.getElem_set_ne (fun h => hia h.symm) _
      rw [hset] at hp
      have hentry : (assignOne st item).shards[i][p] = st.shards[i][p] := by
        simp only [hset]
      rw [hentry]
      have hne2 := hkey i hi' p hp
      constructor
      · show (if (st.shards[i][p]).1 = item.1 then _ else st.psIdx _) = _
        rw [if_neg hne2]
        exact (inv.pos i hi' p hp).1
      · show (if (st.shards[i][p]).1 = item.1 then _ else st.locIdx _) = _
        rw [if_neg hne2]
        exact (inv.pos i hi' p hp).2
  · intro k i p h1 h2
    have hlen2 : (assignOne st item).shards.length = st.shards.length :=
      assignOne_shards_length ..
    by_cases hk : k = item.1
    · subst hk
      have hi : i = argminIdx st.loads := by
        have h1' : (if item.1 = item.1 then some (argminIdx st.loads) else st.psIdx item.1)
            = some i := h1
        rw [if_pos rfl] at h1'
        exact (Option.some_inj.mp h1').symm
      have hp : p = (st.shards.getD (argminIdx st.loads) []).length := by
        have h2' : (if item.1 = item.1 then
            some (st.shards.getD (argminIdx st.loads) []).length else st.locIdx item.1)
            = some p := h2
        rw [if_pos rfl] at h2'
        exact (Option.some_inj.mp h2').symm
      subst hi
      have hi' : argminIdx st.loads < (assignOne st item).shards.length := by
        rw [hlen2]
        exact ha
      refine ⟨hi', ?_⟩
      have hset : (assignOne st item).shards[argminIdx st.loads] =
          st.shards[argminIdx st.loads] ++ [item] := by
        show (st.shards.set _ _)[argminIdx st.loads] = _
        rw [List.getElem_set_self]
        rw [hgetD]
      have hp' : p < (assignOne st item).shards[argminIdx st.loads].length := by
        rw [hset, List.length_append, List.length_singleton, hp, hgetD]
        omega
      refine ⟨hp', ?_⟩
      have hentry : (assignOne st item).shards[argminIdx st.loads][p] = item := by
        simp only [hset]
        refine List.getElem_concat_length _ _ _ ?_ _
        rw [hp, hgetD]
      rw [hentry]
    · have h1' : st.psIdx k = some i := by
        have : (if k = item.1 then some (argminIdx st.loads) else st.psIdx k) = some i := h1
        rwa [if_neg hk] at this
      have h2' : st.locIdx k = some p := by
        have : (if k = item.1 then
            some (st.shards.getD (argminIdx st.loads) []).length else st.locIdx k) = some p := h2
        rwa [if_neg hk] at this
      obtain ⟨hi, hp, hent⟩ := inv.look k i p h1' h2'
      have hi' : i < (assignOne st item).shards.length := by
        rw [hlen2]
        exact hi
      refine ⟨hi', ?_⟩
      by_cases hia : i = argminIdx st.loads
      · subst hia
        have hset : (assignOne st item).shards[argminIdx st.loads] =
            st.shards[argminIdx st.loads] ++ [item] := by
          show (st.shards.set _ _)[argminIdx st.loads] = _
          rw [List.getElem_set_self]
          rw [hgetD]
        have hp' : p < (assignOne st item).shards[argminIdx st.loads].length := by
          rw [hset, List.length_append, List.length_singleton]
          omega
        refine ⟨hp', ?_⟩
        have hentry : (assignOne st item).shards[argminIdx st.loads][p] =
            st.shards[argminIdx st.loads][p] := by
          simp only [hset]
          exact List.getElem_append_left hp
        rw [hentry]
        exact hent
      · have hset : (assignOne st item).shards[i] = st.shards[i] := by
          show (st.shards.set _ _)[i] = _
          exact List.getElem_set_ne (fun h => hia h.symm) _
        have hp' : p < (assignOne st item).shards[i].length := by
          rw [hset]
          exact hp
        refine ⟨hp', ?_⟩
        have hentry : (assignOne st item).shards[i][p] = st.shards[i][p] := by
          simp only [hset]
        rw [hentry]
        exact hent

theorem lookupInv_foldl {κ : Type} [DecidableEq κ] :
    ∀ (L : List (κ × ℕ)) (st : PartState κ),
      st.loads.length = st.shards.length → st.loads ≠ [] →
      LookupInv st → (L.map Prod.fst).Nodup →
      (∀ it ∈ L, st.psIdx it.1 = none) →
      LookupInv (L.foldl assignOne st)
  | [], _, _, _, inv, _, _ => inv
  | it :: L, st, hlen, hne, inv, hnd, hnone => by
    rw [List.foldl_cons]
    have hnd' : (it.1 :: L.map Prod.fst).Nodup := by simpa using hnd
    have hlen2 : (assignOne st it).loads.length = (assignOne st it).shards.length := by
      rw [assignOne_loads_length, assignOne_shards_length]
      exact hlen
    have hne2 : (assignOne st it).loads ≠ [] := by
      have h := assignOne_loads_length st it
      intro hcon
      rw [hcon] at h
      exact hne (List.eq_nil_of_length_eq_zero h.symm)
    have inv2 := lookupInv_assignOne hlen hne inv (hnone it (List.mem_cons_self ..))
    have hnone2 : ∀ x ∈ L, (assignOne st it).psIdx x.1 = none := by
      intro x hx
      have hxne : x.1 ≠ it.1 := by
        intro h
        exact (List.nodup_cons.mp hnd').1 (h ▸ List.mem_map_of_mem Prod.fst hx)
      show (if x.1 = it.1 then _ else st.psIdx x.1) = none
      rw [if_neg hxne]
      exact hnone x (List.mem_cons_of_mem _ hx)
    exact lookupInv_foldl L _ hlen2 hne2 inv2 (List.nodup_cons.mp hnd').2 hnone2

theorem lookupInv_initPart (κ : Type) [DecidableEq κ] (N : ℕ) : LookupInv (initPart κ N) := by
  constructor
  · intro i hi p hp
    have hrep : (initPart κ N).shards[i] = ([] : List (κ × ℕ)) := List.getElem_replicate ..
    rw [hrep] at hp
    simp at hp
  · intro k i p h1 _
    exact Option.noConfusion h1

theorem getD_replicate {β : Type} (d : β) (N i : ℕ) : (List.replicate N d).getD i d = d := by
  simp only [List.getD_eq_getElem?_getD, List.getElem?_replicate]
  split <;> rfl

/-- Shard loads are exactly the cumulative element counts of their entries. -/
def LoadsCoherent {κ : Type} (st : PartState κ) : Prop :=
  ∀ i, i < st.loads.length →
    st.loads.getD i 0 = ((st.shards.getD i []).map Prod.snd).sum

theorem loadsCoherent_assignOne {κ : Type} [DecidableEq κ] {st : PartState κ} {item : κ × ℕ}
    (hlen : st.loads.length = st.shards.length) (hco : LoadsCoherent st) :
    LoadsCoherent (assignOne st item) := by
  intro i hi
  have hi' : i < st.loads.length := by
    rw [assignOne_loads_length] at hi
    exact hi
  have hne : st.loads ≠ [] := by
    intro h
    rw [h] at hi'
    simp at hi'
  have ha : argminIdx st.loads < st.loads.length := argminIdx_lt _ hne
  have ha' : argminIdx st.loads < st.shards.length := hlen ▸ ha
  by_cases hia : i = argminIdx st.loads
  · subst hia
    show (st.loads.set _ _).getD _ 0 = (((st.shards.set _ _).getD _ []).map Prod.snd).sum
    rw [getD_set_self _ _ _ _ ha, getD_set_self _ _ _ _ ha']
    rw [List.map_append, List.sum_append]
    rw [hco _ ha]
    simp
  · show (st.loads.set _ _).getD i 0 = (((st.shards.set _ _).getD i []).map Prod.snd).sum
    rw [getD_set_ne _ _ _ (fun h => hia h.symm), getD_set_ne _ _ _ (fun h => hia h.symm)]
    exact hco i hi'

theorem loadsCoherent_foldl {κ : Type} [DecidableEq κ] :
    ∀ (L : List (κ × ℕ)) (st : PartState κ),
      st.loads.length = st.shards.length → LoadsCoherent st →
      LoadsCoherent (L.foldl assignOne st)
  | [], _, _, hco => hco
  | it :: L, st, hlen, hco => by
    rw [List.foldl_cons]
    have hlen2 : (assignOne st it).loads.length = (assignOne st it).shards.length := by
      rw [assignOne_loads_length, assignOne_shards_length]
      exact hlen
    exact loadsCoherent_foldl L _ hlen2 (loadsCoherent_assignOne hlen hco)

theorem flatten_replicate_nil {β : Type} : ∀ N : ℕ, (List.replicate N ([] : List β)).flatten = []
  | 0 => rfl
  | N + 1 => by
    rw [List.replicate_succ, List.flatten_cons, List.nil_append]
    exact flatten_replicate_nil N

/-- Concrete inputs of the C6 scenario: element counts 50, 40, 30, 20, 10. -/
def c6items : List (ℕ × ℕ) := [(0, 50), (1, 40), (2, 30), (3, 20), (4, 10)]

/-- C5: for every input mapping from parameter name to element count and every
shard count `N ≥ 1`, the partitioning assigns every parameter to exactly one
shard — the concatenation of the shard lists is a permutation of the input,
with no duplicates when the input names are distinct — and any two shard
cumulative element counts differ by at most the largest single element count;
moreover the recorded loads are exactly the per-shard cumulative counts. -/
theorem claim_C5 {κ : Type} [DecidableEq κ] (N : ℕ) (items : List (κ × ℕ)) (hN : 1 ≤ N) :
    List.Perm (partitionParams N items).shards.flatten items ∧
    ((items.map Prod.fst).Nodup →
      ((partitionParams N items).shards.flatten.map Prod.fst).Nodup) ∧
    (∀ i j, i < N → j < N →
      (partitionParams N items).loads.getD i 0 ≤
        (partitionParams N items).loads.getD j 0 + (items.map Prod.snd).foldr max 0) ∧
    (∀ i, i < N → (partitionParams N items).loads.getD i 0 =
      (((partitionParams N items).shards.getD i []).map Prod.snd).sum) := by
  have hsort : List.Perm (sortDesc items) items := List.mergeSort_perm items _
  have hlen0 : (initPart κ N).loads.length = (initPart κ N).shards.length := by
    simp [initPart]
  have hne0 : (initPart κ N).loads ≠ [] := by
    simp only [initPart]
    intro h
    have := congrArg List.length h
    simp at this
    omega
  have hperm : List.Perm (partitionParams N items).shards.flatten items := by
    have h1 := foldl_assignOne_join_perm (sortDesc items) (initPart κ N) hlen0 hne0
    have h2 : (initPart κ N).shards.flatten = [] := flatten_replicate_nil N
    rw [h2] at h1
    simp only [List.nil_append] at h1
    exact h1.trans hsort
  refine ⟨hperm, ?_, ?_, ?_⟩
  · intro hnd
    exact ((hperm.map Prod.fst).nodup_iff).mpr hnd
  · intro i j hi hj
    have hlenN : (partitionParams N items).loads.length = N := by
      show ((sortDesc items).foldl assignOne (initPart κ N)).loads.length = N
      rw [foldl_assignOne_loads_length]
      simp [initPart]
    have hb : BalancedBy ((items.map Prod.snd).foldr max 0) (partitionParams N items).loads := by
      refine balancedBy_foldl (sortDesc items) (initPart κ N) ?_ ?_
      · intro it hit
        have : it ∈ items := hsort.mem_iff.mp hit
        exact le_foldr_max_of_mem _ _ (List.mem_map_of_mem Prod.snd this)
      · intro a b _ _
        show (List.replicate N 0).getD a 0 ≤ (List.replicate N 0).getD b 0 + _
        rw [getD_replicate_zero, getD_replicate_zero]
        omega
    refine hb i j ?_ ?_
    · rw [hlenN]
      exact hi
    · rw [hlenN]
      exact hj
  · intro i hi
    have hlenN : (partitionParams N items).loads.length = N := by
      show ((sortDesc items).foldl assignOne (initPart κ N)).loads.length = N
      rw [foldl_assignOne_loads_length]
      simp [initPart]
    have hco : LoadsCoherent (partitionParams N items) := by
      refine loadsCoherent_foldl (sortDesc items) (initPart κ N) hlen0 ?_
      intro a ha
      show (List.replicate N 0).getD a 0 = (((List.replicate N ([] : List (κ × ℕ))).getD a []).map Prod.snd).sum
      rw [getD_replicate_zero, getD_replicate]
      rfl
    refine hco i ?_
    rw [hlenN]
    exact hi

theorem claim_C5_witness :
    1 ≤ 2 ∧
    (List.Perm (partitionParams 2 [((0 : ℕ), 5), (1, 3), (2, 2)]).shards.flatten
        [((0 : ℕ), 5), (1, 3), (2, 2)] ∧
      (([((0 : ℕ), 5), (1, 3), (2, 2)].map Prod.fst).Nodup →
        ((partitionParams 2 [((0 : ℕ), 5), (1, 3), (2, 2)]).shards.flatten.map Prod.fst).Nodup) ∧
      (∀ i j, i < 2 → j < 2 →
        (partitionParams 2 [((0 : ℕ), 5), (1, 3), (2, 2)]).loads.getD i 0 ≤
          (partitionParams 2 [((0 : ℕ), 5), (1, 3), (2, 2)]).loads.getD j 0 +
            ([((0 : ℕ), 5), (1, 3), (2, 2)].map Prod.snd).foldr max 0) ∧
      (∀ i, i < 2 → (partitionParams 2 [((0 : ℕ), 5), (1, 3), (2, 2)]).loads.getD i 0 =
        (((partitionParams 2 [((0 : ℕ), 5), (1, 3), (2, 2)]).shards.getD i []).map
          Prod.snd).sum)) :=
  ⟨by decide, claim_C5 2 [((0 : ℕ), 5), (1, 3), (2, 2)] (by decide)⟩

/-- C6: the partitioner is exactly the greedy longest-processing-time
algorithm — the processed sequence is a stable descending sort of the input,
each parameter goes to the currently least-loaded shard with ties broken by
lowest shard index, appended at the next position of that shard's list — and
on element counts 50, 40, 30, 20, 10 with 3 shards the final loads are
50, 50, 50. -/
theorem claim_C6 {κ : Type} [DecidableEq κ] :
    (∀ items : List (κ × ℕ),
      List.Pairwise (fun a b => b.2 ≤ a.2) (sortDesc items) ∧
      List.Perm (sortDesc items) items) ∧
    (∀ l : List ℕ, l ≠ [] →
      argminIdx l < l.length ∧
      (∀ j, j < l.length → l.getD (argminIdx l) 0 ≤ l.getD j 0) ∧
      (∀ j, j < argminIdx l → l.getD (argminIdx l) 0 < l.getD j 0)) ∧
    (∀ (st : PartState κ) (item : κ × ℕ), argminIdx st.loads < st.shards.length →
      (assignOne st item).shards.getD (argminIdx st.loads) [] =
        st.shards.getD (argminIdx st.loads) [] ++ [item] ∧
      (assignOne st item).psIdx item.1 = some (argminIdx st.loads) ∧
      (assignOne st item).locIdx item.1 =
        some (st.shards.getD (argminIdx st.loads) []).length) ∧
    (partitionParams 3 c6items).loads = [50, 50, 50] := by
  refine ⟨?_, ?_, ?_, ?_⟩
  · intro items
    constructor
    · have hs := @List.sorted_mergeSort (κ × ℕ) (fun a b => decide (b.2 ≤ a.2))
        (fun (a b c : κ × ℕ) hab hbc => by
          simp only [decide_eq_true_eq] at hab hbc ⊢
          omega)
        (fun a b : κ × ℕ => by
          simp only [Bool.or_eq_true, decide_eq_true_eq]
          omega)
        items
      exact hs.imp (fun h => by simpa using h)
    · exact List.mergeSort_perm items _
  · intro l hl
    exact ⟨argminIdx_lt l hl, argminIdx_le l, argminIdx_first l⟩
  · intro st item ha
    refine ⟨getD_set_self _ _ _ _ ha, ?_, ?_⟩
    · show (if item.1 = item.1 then _ else _) = _
      rw [if_pos rfl]
    · show (if item.1 = item.1 then _ else _) = _
      rw [if_pos rfl]
  · have hs : sortDesc c6items = c6items := by
      show List.mergeSort _ _ = _
      exact List.mergeSort_of_sorted (by decide)
    show ((sortDesc c6items).foldl assignOne (initPart ℕ 3)).loads = [50, 50, 50]
    rw [hs]
    decide

/-- C10: after partitioning, the per-name lookup and the shard lists are
mutually inverse — the entry stored at shard `i`, position `p` has lookup
`(i, p)`, and every lookup hit `(i, p)` names a real entry holding that key. -/
theorem claim_C10 {κ : Type} [DecidableEq κ] (N : ℕ) (items : List (κ × ℕ))
    (hN : 1 ≤ N) (hnd : (items.map Prod.fst).Nodup) :
    LookupInv (partitionParams N items) := by
  have hlen0 : (initPart κ N).loads.length = (initPart κ N).shards.length := by
    simp [initPart]
  have hne0 : (initPart κ N).loads ≠ [] := by
    simp only [initPart]
    intro h
    have := congrArg List.length h
    simp at this
    omega
  have hnd' : ((sortDesc items).map Prod.fst).Nodup := by
    have hperm : List.Perm ((sortDesc items).map Prod.fst) (items.map Prod.fst) :=
      (List.mergeSort_perm items _).map Prod.fst
    exact hperm.nodup_iff.mpr hnd
  exact lookupInv_foldl (sortDesc items) (initPart κ N) hlen0 hne0
    (lookupInv_initPart κ N) hnd' (fun _ _ => rfl)

theorem claim_C6_witness :
    ([(2 : ℕ), 1, 3] ≠ [] ∧
      (argminIdx [2, 1, 3] < [(2 : ℕ), 1, 3].length ∧
        (∀ j, j < [(2 : ℕ), 1, 3].length →
          [(2 : ℕ), 1, 3].getD (argminIdx [2, 1, 3]) 0 ≤ [(2 : ℕ), 1, 3].getD j 0) ∧
        (∀ j, j < argminIdx [2, 1, 3] →
          [(2 : ℕ), 1, 3].getD (argminIdx [2, 1, 3]) 0 < [(2 : ℕ), 1, 3].getD j 0))) ∧
    (partitionParams 3 c6items).loads = [50, 50, 50] :=
  ⟨⟨by decide, (@claim_C6 ℕ _).2.1 [2, 1, 3] (by decide)⟩, (@claim_C6 ℕ _).2.2.2⟩

theorem claim_C10_witness :
    (1 ≤ 2 ∧ ([((0 : ℕ), 5), (1, 3), (2, 2)].map Prod.fst).Nodup) ∧
    LookupInv (partitionParams 2 [((0 : ℕ), 5), (1, 3), (2, 2)]) :=
  ⟨⟨by decide, by decide⟩, claim_C10 2 [((0 : ℕ), 5), (1, 3), (2, 2)] (by decide) (by decide)⟩

/-! ## ParameterServer.ps_computing (training_sgd.py, lines 245-313)

The handler runs entirely under `self.sync_lock`, so concurrent contributions
serialize and the shard behaves as a sequential state machine; one call of
`ps_computing` is one transition.  A `torch.futures.Future` is modelled by a
numeric identity: `futureId` is the current `ps_comp_future`, fresh futures
take successive identities, and `resolved` records `set_result` calls
(future identity, parameter snapshot).  `opt_count` is a ghost counter of
`optimizer.step()` executions.  The optimizer itself (`torch.optim`) is opaque
in the source and is passed as a function `opt` from current parameters and
accumulated gradients to new parameters. -/

/-- A tensor, modelled as an integer vector. -/
abbrev Vec : Type := List ℤ

/-- Element-wise tensor addition (`param.grad += grad`). -/
def addVec (a b : Vec) : Vec := List.zipWith (· + ·) a b

/-- One gradient contribution: the calling `worker_id` and the per-parameter
gradient list sent to this shard (`gradients` argument, line 246). -/
abbrev Contrib : Type := ℕ × List Vec

/-- Shard state of `ParameterServer`: `sync_mode` (0 = wait for all workers,
1 = step on every contribution), `worker_num`, `step_num`, the shard's
parameters `params`, the per-parameter accumulated gradients `grads`
(`param.grad`, `none` when cleared), the contribution counter
`sync_worker_count`, the identity of the pending `ps_comp_future`, a fresh
identity supply, the resolution log, and the ghost optimizer-step counter. -/
structure PSState where
  sync_mode : ℕ
  worker_num : ℕ
  step_num : ℕ
  params : List Vec
  grads : List (Option Vec)
  sync_worker_count : ℕ
  futureId : ℕ
  nextFutureId : ℕ
  resolved : List (ℕ × List Vec)
  opt_count : ℕ

/-- Accumulation loop of lines 276-280: `for param, grad in
zip(self.ps_params, gradients)`, lazily initialising `param.grad` to the first
contribution and adding element-wise afterwards.  Like Python `zip`, the loop
stops at the shorter list and leaves the remaining entries untouched. -/
def accGrads : List (Option Vec) → List Vec → List (Option Vec)
  | ps, [] => ps
  | [], _ :: _ => []
  | a :: ps, g :: gs =>
    (match a with
      | none => some g
      | some v => some (addVec v g)) :: accGrads ps gs

/-- Resolution-log lookup: the snapshot a given future identity was resolved
with, if any. -/
def lookupF (id : ℕ) (l : List (ℕ × List Vec)) : Option (List Vec) :=
  (l.find? (fun p => p.1 = id)).map Prod.snd

/-- The trigger condition of line 285 as seen by one arriving contribution:
`sync_mode == 1 or self.sync_worker_count >= self.worker_num` after the
counter increment of line 281. -/
def triggers (s : PSState) : Prop :=
  s.sync_mode = 1 ∨ s.sync_worker_count + 1 ≥ s.worker_num

instance (s : PSState) : Decidable (triggers s) := by
  unfold triggers
  infer_instance

/-- Embedding of `ps_computing` (lines 245-313), returning the successor state
and the future handed back to the caller.  Mirrors, in order: `step_num += 1`
(line 274); gradient accumulation (276-280); `sync_worker_count += 1` (281);
`ft = self.ps_comp_future` (283); if `sync_mode == 1 or sync_worker_count >=
worker_num`: `optimizer.step()` (293), clearing of every `param.grad`
(295-296), counter reset (297), `ft.set_result(...)` with the post-step
parameters (310) and the fresh-future swap (311); finally `return ft` (313).
The commented-out averaging (288-291) is absent, matching the source. -/
def psComputing (opt : List Vec → List (Option Vec) → List Vec) (s : PSState) (c : Contrib) :
    PSState × ℕ :=
  let grads := accGrads s.grads c.2
  if s.sync_mode = 1 ∨ s.sync_worker_count + 1 ≥ s.worker_num then
    ({ s with
        step_num := s.step_num + 1
        params := opt s.params grads
        grads := grads.map (fun _ => none)
        sync_worker_count := 0
        resolved := (s.futureId, opt s.params grads) :: s.resolved
        futureId := s.nextFutureId
        nextFutureId := s.nextFutureId + 1
        opt_count := s.opt_count + 1 }, s.futureId)
  else
    ({ s with
        step_num := s.step_num + 1
        grads := grads
        sync_worker_count := s.sync_worker_count + 1 }, s.futureId)

/-- A sequence of serialized contributions: successor state plus the list of
futures returned to the callers, in order. -/
def runPS (opt : List Vec → List (Option Vec) → List Vec) :
    PSState → List Contrib → PSState × List ℕ
  | s, [] => (s, [])
  | s, c :: L =>
    let r := psComputing opt s c
    let rest := runPS opt r.1 L
    (rest.1, r.2 :: rest.2)

theorem psComputing_step_num (opt : List Vec → List (Option Vec) → List Vec)
    (s : PSState) (c : Contrib) : ((psComputing opt s c).1).step_num = s.step_num + 1 := by
  unfold psComputing
  split <;> rfl

theorem psComputing_future (opt : List Vec → List (Option Vec) → List Vec)
    (s : PSState) (c : Contrib) : (psComputing opt s c).2 = s.futureId := by
  unfold psComputing
  split <;> rfl

theorem runPS_step_num (opt : List Vec → List (Option Vec) → List Vec) :
    ∀ (L : List Contrib) (s : PSState),
      ((runPS opt s L).1).step_num = s.step_num + L.length
  | [], _ => rfl
  | c :: L, s => by
    show ((runPS opt (psComputing opt s c).1 L).1).step_num = _
    rw [runPS_step_num opt L, psComputing_step_num]
    simp only [List.length_cons]
    omega

theorem runPS_append (opt : List Vec → List (Option Vec) → List Vec) :
    ∀ (L1 L2 : List Contrib) (s : PSState),
      runPS opt s (L1 ++ L2) =
        ((runPS opt (runPS opt s L1).1 L2).1,
          (runPS opt s L1).2 ++ (runPS opt (runPS opt s L1).1 L2).2)
  | [], L2, s => rfl
  | c :: L1, L2, s => by
    show ((runPS opt (psComputing opt s c).1 (L1 ++ L2)).1,
        (psComputing opt s c).2 :: (runPS opt (psComputing opt s c).1 (L1 ++ L2)).2) = _
    rw [runPS_append opt L1 L2]
    rfl

theorem accGrads_length (g : List (Option Vec)) (gs : List Vec) :
    (accGrads g gs).length = g.length := by
  induction g generalizing gs with
  | nil => cases gs <;> simp [accGrads]
  | cons a g ih =>
    cases gs with
    | nil => simp [accGrads]
    | cons x gs => simp [accGrads, ih]

theorem foldl_accGrads_length :
    ∀ (L : List Contrib) (g : List (Option Vec)),
      (L.foldl (fun g c => accGrads g c.2) g).length = g.length
  | [], _ => rfl
  | c :: L, g => by
    rw [List.foldl_cons, foldl_accGrads_length L, accGrads_length]

theorem map_none_replicate : ∀ (l : List (Option Vec)),
    l.map (fun _ => (none : Option Vec)) = List.replicate l.length none
  | [] => rfl
  | a :: l => by
    rw [List.map_cons, List.length_cons, List.replicate_succ, map_none_replicate l]

/-- In sync mode, as long as the counter stays strictly below `worker_num`, a
batch of contributions only accumulates: gradients add up, the counter and
`step_num` advance, and every caller receives the still-pending round future
unchanged; parameters, resolution log and future identities do not move. -/
theorem runPS_sync_accum (opt : List Vec → List (Option Vec) → List Vec) :
    ∀ (L : List Contrib) (s : PSState),
      s.sync_mode = 0 → s.sync_worker_count + L.length < s.worker_num →
      runPS opt s L =
        ({ s with
            step_num := s.step_num + L.length
            grads := L.foldl (fun g c => accGrads g c.2) s.grads
            sync_worker_count := s.sync_worker_count + L.length },
          List.replicate L.length s.futureId)
  | [], s, _, _ => rfl
  | c :: L, s, hm, hcnt => by
    have hcnt0 : s.sync_worker_count + (L.length + 1) < s.worker_num := by
      simpa using hcnt
    have hnot : ¬ (s.sync_mode = 1 ∨ s.sync_worker_count + 1 ≥ s.worker_num) := by
      omega
    have hps : psComputing opt s c =
        ({ s with
            step_num := s.step_num + 1
            grads := accGrads s.grads c.2
            sync_worker_count := s.sync_worker_count + 1 }, s.futureId) := by
      unfold psComputing
      rw [if_neg hnot]
    have hrec := runPS_sync_accum opt L
      { s with
          step_num := s.step_num + 1
          grads := accGrads s.grads c.2
          sync_worker_count := s.sync_worker_count + 1 }
      hm (by show s.sync_worker_count + 1 + L.length < s.worker_num; omega)
    show ((runPS opt (psComputing opt s c).1 L).1,
        (psComputing opt s c).2 :: (runPS opt (psComputing opt s c).1 L).2) = _
    rw [hps]
    dsimp only
    rw [hrec]
    refine Prod.ext ?_ ?_
    · show ({ s with
          step_num := s.step_num + 1 + L.length
          grads := L.foldl (fun g c => accGrads g c.2) (accGrads s.grads c.2)
          sync_worker_count := s.sync_worker_count + 1 + L.length } : PSState) = _
      simp only [List.length_cons, List.foldl_cons]
      congr 1 <;> omega
    · show s.futureId :: List.replicate L.length s.futureId = _
      rw [List.length_cons, List.replicate_succ]

theorem runPS_one (opt : List Vec → List (Option Vec) → List Vec) (s : PSState) (c : Contrib) :
    runPS opt s [c] = ((psComputing opt s c).1, [(psComputing opt s c).2]) := rfl

theorem psComputing_trigger (opt : List Vec → List (Option Vec) → List Vec) (s : PSState)
    (c : Contrib) (h : s.sync_mode = 1 ∨ s.sync_worker_count + 1 ≥ s.worker_num) :
    psComputing opt s c =
      ({ s with
          step_num := s.step_num + 1
          params := opt s.params (accGrads s.grads c.2)
          grads := (accGrads s.grads c.2).map (fun _ => none)
          sync_worker_count := 0
          resolved := (s.futureId, opt s.params (accGrads s.grads c.2)) :: s.resolved
          futureId := s.nextFutureId
          nextFutureId := s.nextFutureId + 1
          opt_count := s.opt_count + 1 }, s.futureId) := by
  unfold psComputing
  rw [if_pos h]

/-- In sync mode, a clean round (counter zero) that receives exactly
`worker_num` contributions steps exactly once: the optimizer is applied to the
accumulated gradients, the buffer is cleared, the counter returns to zero, the
pending future resolves with the post-step parameters, a fresh future is
installed, and every one of the `worker_num` callers receives the same
pre-existing round future. -/
theorem runPS_sync_round (opt : List Vec → List (Option Vec) → List Vec)
    (s : PSState) (L : List Contrib) (c : Contrib)
    (hm : s.sync_mode = 0) (hc0 : s.sync_worker_count = 0)
    (hlen : (L ++ [c]).length = s.worker_num) :
    runPS opt s (L ++ [c]) =
      ({ s with
          step_num := s.step_num + s.worker_num
          params := opt s.params ((L ++ [c]).foldl (fun g x => accGrads g x.2) s.grads)
          grads := ((L ++ [c]).foldl (fun g x => accGrads g x.2) s.grads).map (fun _ => none)
          sync_worker_count := 0
          resolved := (s.futureId,
            opt s.params ((L ++ [c]).foldl (fun g x => accGrads g x.2) s.grads)) :: s.resolved
          futureId := s.nextFutureId
          nextFutureId := s.nextFutureId + 1
          opt_count := s.opt_count + 1 },
        List.replicate s.worker_num s.futureId) := by
  have hlen' : L.length + 1 = s.worker_num := by simpa using hlen
  have haccum := runPS_sync_accum opt L s hm (by omega)
  rw [runPS_append opt L [c] s, haccum]
  dsimp only
  rw [runPS_one]
  rw [psComputing_trigger opt
    { s with
        step_num := s.step_num + L.length
        grads := L.foldl (fun g x => accGrads g x.2) s.grads
        sync_worker_count := s.sync_worker_count + L.length }
    c (by
      show s.sync_mode = 1 ∨ s.sync_worker_count + L.length + 1 ≥ s.worker_num
      omega)]
  dsimp only
  refine Prod.ext ?_ ?_
  · show ({ s with
        step_num := s.step_num + L.length + 1
        params := opt s.params (accGrads (L.foldl (fun g x => accGrads g x.2) s.grads) c.2)
        grads := (accGrads (L.foldl (fun g x => accGrads g x.2) s.grads) c.2).map
          (fun _ => none)
        sync_worker_count := 0
        resolved := (s.futureId,
          opt s.params (accGrads (L.foldl (fun g x => accGrads g x.2) s.grads) c.2))
          :: s.resolved
        futureId := s.nextFutureId
        nextFutureId := s.nextFutureId + 1
        opt_count := s.opt_count + 1 } : PSState) = _
    simp only [List.foldl_append, List.foldl_cons, List.foldl_nil]
    congr 1
    omega
  · show List.replicate L.length s.futureId ++ [s.futureId] = _
    rw [← hlen', List.replicate_succ']

theorem lookupF_head (id : ℕ) (v : List Vec) (l : List (ℕ × List Vec)) :
    lookupF id ((id, v) :: l) = some v := by
  simp [lookupF, List.find?]

theorem runPS_nil (opt : List Vec → List (Option Vec) → List Vec) (s : PSState) :
    runPS opt s [] = (s, []) := rfl

/-- In async mode every contribution advances `step_num`, the resolution log
and the optimizer-step count by exactly one each. -/
theorem runPS_async (opt : List Vec → List (Option Vec) → List Vec) :
    ∀ (L : List Contrib) (s : PSState), s.sync_mode = 1 →
      ((runPS opt s L).1).step_num = s.step_num + L.length ∧
      ((runPS opt s L).1).resolved.length = s.resolved.length + L.length ∧
      ((runPS opt s L).1).opt_count = s.opt_count + L.length
  | [], _, _ => ⟨rfl, rfl, rfl⟩
  | c :: L, s, hm => by
    have hps := psComputing_trigger opt s c (Or.inl hm)
    have hm' : ((psComputing opt s c).1).sync_mode = 1 := by
      rw [hps]
      exact hm
    obtain ⟨h1, h2, h3⟩ := runPS_async opt L (psComputing opt s c).1 hm'
    refine ⟨?_, ?_, ?_⟩
    · show ((runPS opt (psComputing opt s c).1 L).1).step_num = _
      rw [h1, hps]
      dsimp only
      simp only [List.length_cons]
      omega
    · show ((runPS opt (psComputing opt s c).1 L).1).resolved.length = _
      rw [h2, hps]
      dsimp only
      simp only [List.length_cons]
      omega
    · show ((runPS opt (psComputing opt s c).1 L).1).opt_count = _
      rw [h3, hps]
      dsimp only
      simp only [List.length_cons]
      omega

/-- Iterating full sync rounds: `R` completed rounds of `worker_num`
contributions each advance `step_num` by `R * worker_num` while completing
exactly `R` rounds (resolution-log growth `R`). -/
theorem runPS_sync_rounds (opt : List Vec → List (Option Vec) → List Vec) :
    ∀ (rounds : List (List Contrib)) (s : PSState),
      s.sync_mode = 0 → 1 ≤ s.worker_num → s.sync_worker_count = 0 →
      (∀ r ∈ rounds, r.length = s.worker_num) →
      ((runPS opt s rounds.flatten).1).step_num
          = s.step_num + rounds.length * s.worker_num ∧
      ((runPS opt s rounds.flatten).1).resolved.length
          = s.resolved.length + rounds.length
  | [], s, _, _, _, _ => ⟨by simp [runPS_nil], by simp [runPS_nil]⟩
  | r :: rounds, s, hm, hW, hc0, hr => by
    have hr0 := hr r (List.mem_cons_self ..)
    rcases List.eq_nil_or_concat' r with hnil | ⟨L', c, hconcat⟩
    · rw [hnil] at hr0
      simp at hr0
      omega
    · have hround := runPS_sync_round opt s L' c hm hc0 (by rw [← hconcat]; exact hr0)
      have hm2 : ((runPS opt s (L' ++ [c])).1).sync_mode = 0 := by
        rw [hround]
        exact hm
      have hW2 : 1 ≤ ((runPS opt s (L' ++ [c])).1).worker_num := by
        rw [hround]
        exact hW
      have hc02 : ((runPS opt s (L' ++ [c])).1).sync_worker_count = 0 := by
        rw [hround]
      have hr2 : ∀ x ∈ rounds, x.length = ((runPS opt s (L' ++ [c])).1).worker_num := by
        intro x hx
        rw [hround]
        exact hr x (List.mem_cons_of_mem _ hx)
      obtain ⟨ih1, ih2⟩ := runPS_sync_rounds opt rounds _ hm2 hW2 hc02 hr2
      rw [List.flatten_cons, hconcat, runPS_append]
      dsimp only
      constructor
      · rw [ih1, hround]
        dsimp only
        simp only [List.length_cons, Nat.succ_mul]
        omega
      · rw [ih2, hround]
        dsimp only
        simp only [List.length_cons]
        omega

/-- Element-wise sum of a round's contributions, each counted once and with
no scaling: the first contribution followed by element-wise addition of the
rest (empty round: empty gradient). -/
def sumContribs : List Contrib → List Vec
  | [] => []
  | c :: L => L.foldl (fun a x => List.zipWith addVec a x.2) c.2

theorem accGrads_replicate_none : ∀ g : List Vec,
    accGrads (List.replicate g.length none) g = g.map some
  | [] => rfl
  | x :: gs => by
    show some x :: accGrads (List.replicate gs.length none) gs = some x :: gs.map some
    rw [accGrads_replicate_none gs]

theorem accGrads_map_some : ∀ (a g : List Vec), g.length = a.length →
    accGrads (a.map some) g = (List.zipWith addVec a g).map some
  | [], [], _ => rfl
  | [], _ :: _, h => by simp at h
  | _ :: _, [], h => by simp at h
  | x :: a, y :: g, h => by
    show some (addVec x y) :: accGrads (a.map some) g = _
    rw [accGrads_map_some a g (by simpa using h)]
    rfl

theorem foldl_accGrads_some : ∀ (L : List Contrib) (a : List Vec),
    (∀ x ∈ L, x.2.length = a.length) →
    L.foldl (fun g c => accGrads g c.2) (a.map some)
      = (L.foldl (fun v c => List.zipWith addVec v c.2) a).map some
  | [], _, _ => rfl
  | c :: L, a, hlen => by
    rw [List.foldl_cons, List.foldl_cons,
      accGrads_map_some a c.2 (hlen c (List.mem_cons_self ..))]
    exact foldl_accGrads_some L (List.zipWith addVec a c.2) (fun x hx => by
      rw [List.length_zipWith, hlen c (List.mem_cons_self ..), min_self]
      exact hlen x (List.mem_cons_of_mem _ hx))

/-- Accumulating a nonempty round into a cleared buffer yields exactly the
plain element-wise sum of the round's contributions, wrapped in `some`. -/
theorem roundAcc_sum (c0 : Contrib) (rest : List Contrib) (n : ℕ)
    (h0 : c0.2.length = n) (hr : ∀ x ∈ rest, x.2.length = n) :
    (c0 :: rest).foldl (fun g x => accGrads g x.2) (List.replicate n none)
      = (sumContribs (c0 :: rest)).map some := by
  subst h0
  rw [List.foldl_cons, accGrads_replicate_none c0.2]
  exact foldl_accGrads_some rest c0.2 hr

/-- SGD-like concrete optimizer for scenario instances: adds each accumulated
gradient into its parameter, leaving parameters without a gradient untouched. -/
def optAdd : List Vec → List (Option Vec) → List Vec :=
  fun p g => (List.zip p g).map (fun x =>
    match x.2 with
    | none => x.1
    | some v => addVec x.1 v)

/-- Concrete sync-mode shard: 2 workers, one scalar parameter. -/
def cxSyncState : PSState :=
  { sync_mode := 0, worker_num := 2, step_num := 0, params := [[0]], grads := [none],
    sync_worker_count := 0, futureId := 0, nextFutureId := 1, resolved := [], opt_count := 0 }

/-- Concrete async-mode shard: 2 workers, one scalar parameter. -/
def cxAsyncState : PSState :=
  { sync_mode := 1, worker_num := 2, step_num := 0, params := [[0]], grads := [none],
    sync_worker_count := 0, futureId := 0, nextFutureId := 1, resolved := [], opt_count := 0 }

/-- Concrete sync-mode shard of the 3-worker scenario. -/
def c2State : PSState :=
  { sync_mode := 0, worker_num := 3, step_num := 0, params := [[0]], grads := [none],
    sync_worker_count := 0, futureId := 5, nextFutureId := 6, resolved := [], opt_count := 0 }

/-- C1 (amended): the per-shard StepCounter is monotonically non-decreasing
and never decremented, but it is incremented exactly once per received
contribution, not once per completed round: in async mode, where every
contribution completes a round, after `R` completed rounds its value is
exactly the initial value plus `R`; in sync mode, after `R` completed rounds
of `worker_num` contributions each, its value is the initial value plus
`R * worker_num`. -/
theorem claim_C1_amended (opt : List Vec → List (Option Vec) → List Vec) :
    (∀ (s : PSState) (c : Contrib),
      ((psComputing opt s c).1).step_num = s.step_num + 1) ∧
    (∀ (s : PSState) (L : List Contrib),
      ((runPS opt s L).1).step_num = s.step_num + L.length ∧
      s.step_num ≤ ((runPS opt s L).1).step_num) ∧
    (∀ (s : PSState) (L : List Contrib), s.sync_mode = 1 →
      ((runPS opt s L).1).resolved.length = s.resolved.length + L.length ∧
      ((runPS opt s L).1).step_num = s.step_num + L.length) ∧
    (∀ (s : PSState) (rounds : List (List Contrib)),
      s.sync_mode = 0 → 1 ≤ s.worker_num → s.sync_worker_count = 0 →
      (∀ r ∈ rounds, r.length = s.worker_num) →
      ((runPS opt s rounds.flatten).1).resolved.length
          = s.resolved.length + rounds.length ∧
      ((runPS opt s rounds.flatten).1).step_num
          = s.step_num + rounds.length * s.worker_num) := by
  refine ⟨psComputing_step_num opt, ?_, ?_, ?_⟩
  · intro s L
    refine ⟨runPS_step_num opt L s, ?_⟩
    rw [runPS_step_num opt L s]
    omega
  · intro s L hm
    obtain ⟨h1, h2, _⟩ := runPS_async opt L s hm
    exact ⟨h2, h1⟩
  · intro s rounds hm hW hc0 hr
    obtain ⟨h1, h2⟩ := runPS_sync_rounds opt rounds s hm hW hc0 hr
    exact ⟨h2, h1⟩

theorem claim_C1_counterexample :
    ((runPS optAdd cxSyncState [((0 : ℕ), [[1]]), (1, [[1]])]).1).resolved.length = 1 ∧
    ((runPS optAdd cxSyncState [((0 : ℕ), [[1]]), (1, [[1]])]).1).step_num = 2 ∧
    ¬ ((runPS optAdd cxSyncState [((0 : ℕ), [[1]]), (1, [[1]])]).1).step_num = 1 := by
  decide

theorem claim_C1_amended_witness :
    ((psComputing optAdd cxSyncState ((0 : ℕ), [[1]])).1).step_num
        = cxSyncState.step_num + 1 ∧
    (cxAsyncState.sync_mode = 1 ∧
      ((runPS optAdd cxAsyncState [((0 : ℕ), [[1]]), (1, [[1]])]).1).resolved.length
        = cxAsyncState.resolved.length + [((0 : ℕ), [[1]]), (1, [[1]])].length ∧
      ((runPS optAdd cxAsyncState [((0 : ℕ), [[1]]), (1, [[1]])]).1).step_num
        = cxAsyncState.step_num + [((0 : ℕ), [[1]]), (1, [[1]])].length) ∧
    (cxSyncState.sync_mode = 0 ∧
      ((runPS optAdd cxSyncState [[((0 : ℕ), [[1]]), (1, [[1]])]].flatten).1).resolved.length
        = cxSyncState.resolved.length + [[((0 : ℕ), [[1]]), (1, [[1]])]].length ∧
      ((runPS optAdd cxSyncState [[((0 : ℕ), [[1]]), (1, [[1]])]].flatten).1).step_num
        = cxSyncState.step_num
            + [[((0 : ℕ), [[1]]), (1, [[1]])]].length * cxSyncState.worker_num) :=
  ⟨(claim_C1_amended optAdd).1 cxSyncState ((0 : ℕ), [[1]]),
    ⟨rfl, (claim_C1_amended optAdd).2.2.1 cxAsyncState [((0 : ℕ), [[1]]), (1, [[1]])] rfl⟩,
    ⟨rfl, (claim_C1_amended optAdd).2.2.2 cxSyncState [[((0 : ℕ), [[1]]), (1, [[1]])]]
      rfl (by decide) rfl (by decide)⟩⟩

/-- C2: in sync mode (mode fixed for the whole run), with a clean round and at
most `worker_num` contributions, the round future resolves if and only if
exactly `worker_num` contributions arrived; all contributors receive the same
pre-existing round future; and immediately after completion the accumulation
buffer is entirely cleared, the counter is zero, and the future is resolved
with the (shared, hence identical for all contributors) post-step parameter
snapshot. -/
theorem claim_C2 (opt : List Vec → List (Option Vec) → List Vec) (s : PSState)
    (hm : s.sync_mode = 0) (hW : 1 ≤ s.worker_num) (hc0 : s.sync_worker_count = 0)
    (hun : lookupF s.futureId s.resolved = none) :
    ∀ L : List Contrib, L.length ≤ s.worker_num →
      ((lookupF s.futureId ((runPS opt s L).1).resolved).isSome
          ↔ L.length = s.worker_num) ∧
      (runPS opt s L).2 = List.replicate L.length s.futureId ∧
      (L.length = s.worker_num →
        ((runPS opt s L).1).grads = List.replicate s.grads.length none ∧
        ((runPS opt s L).1).sync_worker_count = 0 ∧
        lookupF s.futureId ((runPS opt s L).1).resolved
          = some (((runPS opt s L).1).params)) := by
  intro L hle
  by_cases hEq : L.length = s.worker_num
  · rcases List.eq_nil_or_concat' L with hnil | ⟨L', c, hc⟩
    · exfalso
      rw [hnil] at hEq
      simp at hEq
      omega
    · subst hc
      have hround := runPS_sync_round opt s L' c hm hc0 hEq
      rw [hround]
      dsimp only
      refine ⟨?_, ?_, fun _ => ⟨?_, rfl, ?_⟩⟩
      · refine iff_of_true ?_ hEq
        rw [lookupF_head]
        rfl
      · rw [hEq]
      · rw [map_none_replicate, foldl_accGrads_length]
      · rw [lookupF_head]
  · have hlt : L.length < s.worker_num := lt_of_le_of_ne hle hEq
    have haccum := runPS_sync_accum opt L s hm (by omega)
    rw [haccum]
    dsimp only
    refine ⟨?_, rfl, fun h => absurd h hEq⟩
    constructor
    · intro hcon
      rw [hun] at hcon
      exact absurd hcon (by simp)
    · intro h
      exact absurd h hEq

theorem claim_C2_witness :
    (c2State.sync_mode = 0 ∧ 1 ≤ c2State.worker_num ∧ c2State.sync_worker_count = 0 ∧
      lookupF c2State.futureId c2State.resolved = none ∧
      [((0 : ℕ), [[1]]), (1, [[2]])].length ≤ c2State.worker_num ∧
      [((0 : ℕ), [[1]]), (1, [[2]]), (2, [[3]])].length ≤ c2State.worker_num) ∧
    ¬ (lookupF c2State.futureId
        ((runPS optAdd c2State [((0 : ℕ), [[1]]), (1, [[2]])]).1).resolved).isSome ∧
    (runPS optAdd c2State [((0 : ℕ), [[1]]), (1, [[2]])]).2
      = List.replicate [((0 : ℕ), [[1]]), (1, [[2]])].length c2State.futureId ∧
    ((runPS optAdd c2State [((0 : ℕ), [[1]]), (1, [[2]]), (2, [[3]])]).1).grads
      = List.replicate c2State.grads.length none ∧
    ((runPS optAdd c2State [((0 : ℕ), [[1]]), (1, [[2]]), (2, [[3]])]).1).sync_worker_count
      = 0 ∧
    lookupF c2State.futureId
        ((runPS optAdd c2State [((0 : ℕ), [[1]]), (1, [[2]]), (2, [[3]])]).1).resolved
      = some (((runPS optAdd c2State [((0 : ℕ), [[1]]), (1, [[2]]), (2, [[3]])]).1).params) ∧
    (runPS optAdd c2State [((0 : ℕ), [[1]]), (1, [[2]]), (2, [[3]])]).2
      = List.replicate [((0 : ℕ), [[1]]), (1, [[2]]), (2, [[3]])].length c2State.futureId := by
  have h2 := claim_C2 optAdd c2State rfl (by decide) rfl rfl
    [((0 : ℕ), [[1]]), (1, [[2]])] (by decide)
  have h3 := claim_C2 optAdd c2State rfl (by decide) rfl rfl
    [((0 : ℕ), [[1]]), (1, [[2]]), (2, [[3]])] (by decide)
  obtain ⟨h3g, h3c, h3l⟩ := h3.2.2 (by decide)
  refine ⟨⟨rfl, by decide, rfl, rfl, by decide, by decide⟩, ?_, h2.2.1, h3g, h3c, h3l, ?_⟩
  · intro hcon
    exact absurd (h2.1.mp hcon) (by decide)
  · exact h3.2.1

/-- C4: the future returned to a contributor is captured before that
contribution's own possible triggering of the step and the future swap: the
returned future is always the pre-call round future; when the contribution
triggers the step, that same future is resolved with the post-step parameters
and differs from the freshly installed next-round future; when it does not,
the round future stays pending and nothing is resolved by the call. -/
theorem claim_C4 (opt : List Vec → List (Option Vec) → List Vec) (s : PSState) (c : Contrib)
    (hfresh : s.futureId < s.nextFutureId) :
    (psComputing opt s c).2 = s.futureId ∧
    (triggers s →
      lookupF (psComputing opt s c).2 ((psComputing opt s c).1).resolved
        = some (((psComputing opt s c).1).params) ∧
      ((psComputing opt s c).1).futureId ≠ (psComputing opt s c).2) ∧
    (¬ triggers s →
      ((psComputing opt s c).1).futureId = (psComputing opt s c).2 ∧
      ((psComputing opt s c).1).resolved = s.resolved) := by
  refine ⟨psComputing_future opt s c, ?_, ?_⟩
  · intro htr
    have hps := psComputing_trigger opt s c htr
    rw [hps]
    dsimp only
    refine ⟨lookupF_head .., ?_⟩
    omega
  · intro hntr
    have hntr2 : ¬ (s.sync_mode = 1 ∨ s.sync_worker_count + 1 ≥ s.worker_num) := hntr
    have hps : psComputing opt s c =
        ({ s with
            step_num := s.step_num + 1
            grads := accGrads s.grads c.2
            sync_worker_count := s.sync_worker_count + 1 }, s.futureId) := by
      unfold psComputing
      rw [if_neg hntr2]
    rw [hps]
    exact ⟨rfl, rfl⟩

theorem claim_C4_witness :
    (cxAsyncState.futureId < cxAsyncState.nextFutureId ∧ triggers cxAsyncState ∧
      c2State.futureId < c2State.nextFutureId ∧ ¬ triggers c2State) ∧
    ((psComputing optAdd cxAsyncState ((0 : ℕ), [[1]])).2 = cxAsyncState.futureId ∧
      lookupF (psComputing optAdd cxAsyncState ((0 : ℕ), [[1]])).2
          ((psComputing optAdd cxAsyncState ((0 : ℕ), [[1]])).1).resolved
        = some (((psComputing optAdd cxAsyncState ((0 : ℕ), [[1]])).1).params) ∧
      ((psComputing optAdd cxAsyncState ((0 : ℕ), [[1]])).1).futureId
        ≠ (psComputing optAdd cxAsyncState ((0 : ℕ), [[1]])).2) ∧
    ((psComputing optAdd c2State ((0 : ℕ), [[1]])).2 = c2State.futureId ∧
      ((psComputing optAdd c2State ((0 : ℕ), [[1]])).1).futureId
        = (psComputing optAdd c2State ((0 : ℕ), [[1]])).2 ∧
      ((psComputing optAdd c2State ((0 : ℕ), [[1]])).1).resolved = c2State.resolved) := by
  have h1 := claim_C4 optAdd cxAsyncState ((0 : ℕ), [[1]]) (by decide)
  have h2 := claim_C4 optAdd c2State ((0 : ℕ), [[1]]) (by decide)
  have htr1 : triggers cxAsyncState := Or.inl rfl
  have hntr2 : ¬ triggers c2State := by decide
  exact ⟨⟨by decide, htr1, by decide, hntr2⟩,
    ⟨h1.1, (h1.2.1 htr1).1, (h1.2.1 htr1).2⟩,
    ⟨h2.1, (h2.2.2 hntr2).1, (h2.2.2 hntr2).2⟩⟩

/-- C7: in async mode, every single contribution — from any worker, at any
contribution-counter value — performs exactly one optimizer step, one
StepCounter increment, and one round completion (future resolution). -/
theorem claim_C7 (opt : List Vec → List (Option Vec) → List Vec) (s : PSState) (c : Contrib)
    (hm : s.sync_mode = 1) :
    ((psComputing opt s c).1).opt_count = s.opt_count + 1 ∧
    ((psComputing opt s c).1).step_num = s.step_num + 1 ∧
    ((psComputing opt s c).1).resolved.length = s.resolved.length + 1 := by
  have hps := psComputing_trigger opt s c (Or.inl hm)
  rw [hps]
  dsimp only
  exact ⟨rfl, rfl, by simp⟩

theorem claim_C7_witness :
    cxAsyncState.sync_mode = 1 ∧
    ((psComputing optAdd cxAsyncState ((1 : ℕ), [[7]])).1).opt_count
      = cxAsyncState.opt_count + 1 ∧
    ((psComputing optAdd cxAsyncState ((1 : ℕ), [[7]])).1).step_num
      = cxAsyncState.step_num + 1 ∧
    ((psComputing optAdd cxAsyncState ((1 : ℕ), [[7]])).1).resolved.length
      = cxAsyncState.resolved.length + 1 :=
  ⟨rfl, claim_C7 optAdd cxAsyncState ((1 : ℕ), [[7]]) rfl⟩

/-- C9: in both modes the gradient handed to the optimizer at a step is the
plain element-wise sum of the round's contributions, each counted once and
with no division by the contributor count: in sync mode the step at the end of
a clean `worker_num`-contribution round applies the optimizer to the sum of
all `worker_num` gradients; in async mode each step applies it to the single
contribution (a one-element sum). -/
theorem claim_C9 (opt : List Vec → List (Option Vec) → List Vec) :
    (∀ (s : PSState) (L' : List Contrib) (c : Contrib),
      s.sync_mode = 0 → s.sync_worker_count = 0 →
      s.grads = List.replicate s.params.length none →
      (L' ++ [c]).length = s.worker_num →
      (∀ x ∈ L' ++ [c], x.2.length = s.params.length) →
      ((runPS opt s (L' ++ [c])).1).params
        = opt s.params ((sumContribs (L' ++ [c])).map some)) ∧
    (∀ (s : PSState) (c : Contrib), s.sync_mode = 1 →
      s.grads = List.replicate s.params.length none →
      c.2.length = s.params.length →
      ((psComputing opt s c).1).params = opt s.params ((sumContribs [c]).map some)) := by
  constructor
  · intro s L' c hm hc0 hgr hlen hshape
    have hround := runPS_sync_round opt s L' c hm hc0 hlen
    rw [hround]
    dsimp only
    congr 1
    rw [hgr]
    cases L' with
    | nil =>
      exact roundAcc_sum c [] s.params.length (hshape c (by simp)) (by simp)
    | cons l0 L2 =>
      exact roundAcc_sum l0 (L2 ++ [c]) s.params.length (hshape l0 (by simp))
        (fun x hx => hshape x (by
          rcases List.mem_append.mp hx with h | h
          · exact List.mem_append.mpr (Or.inl (List.mem_cons_of_mem _ h))
          · exact List.mem_append.mpr (Or.inr h)))
  · intro s c hm hgr hclen
    have hps := psComputing_trigger opt s c (Or.inl hm)
    rw [hps]
    dsimp only
    congr 1
    rw [hgr, ← hclen]
    exact accGrads_replicate_none c.2

theorem claim_C9_witness :
    (c2State.sync_mode = 0 ∧ c2State.sync_worker_count = 0 ∧
      c2State.grads = List.replicate c2State.params.length none ∧
      ([((0 : ℕ), [[1]]), (1, [[2]])] ++ [((2 : ℕ), [[3]])]).length = c2State.worker_num) ∧
    ((runPS optAdd c2State ([((0 : ℕ), [[1]]), (1, [[2]])] ++ [((2 : ℕ), [[3]])])).1).params
      = optAdd c2State.params
          ((sumContribs ([((0 : ℕ), [[1]]), (1, [[2]])] ++ [((2 : ℕ), [[3]])])).map some) ∧
    ((psComputing optAdd cxAsyncState ((0 : ℕ), [[4]])).1).params
      = optAdd cxAsyncState.params ((sumContribs [((0 : ℕ), [[4]])]).map some) := by
  refine ⟨⟨rfl, rfl, rfl, by decide⟩, ?_, ?_⟩
  · exact (claim_C9 optAdd).1 c2State [((0 : ℕ), [[1]]), (1, [[2]])] ((2 : ℕ), [[3]])
      rfl rfl rfl (by decide) (by decide)
  · exact (claim_C9 optAdd).2 cxAsyncState ((0 : ℕ), [[4]]) rfl rfl (by decide)

/-! ## Worker per-step fan-out and model overwrite (training_sgd.py, lines 462-478)

A worker's training step submits one `run_ps_computing` call per shard (lines
467-474, one thread per `ps_id` in `range(self.ps_num)`), joins them all, and
then overwrites each local parameter positionally from the returned shard
snapshots (lines 476-478).  The snapshots received from the shards are
abstracted as a function `paramLists` from shard index and position to the
returned value, and the local model as a function from parameter name to
value. -/

/-- The contribution calls issued by the fan-out loop (lines 469-472): one per
`ps_id` in `range(ps_num)`, carrying that shard's gradient list. -/
def fanOutCalls (psNum : ℕ) (gradLists : List (List Vec)) : List (ℕ × List Vec) :=
  (List.range psNum).map (fun i => (i, gradLists.getD i []))

/-- The model-overwrite loop of lines 476-478: for every key of
`param_ps_idx`, copy `param_lists[param_ps_idx[key]][param_loc_idx[key]]` into
the local model. -/
def applySnapshots {κ V : Type} [DecidableEq κ] (keys : List κ) (psIdx locIdx : κ → ℕ)
    (paramLists : ℕ → ℕ → V) (model : κ → V) : κ → V :=
  keys.foldl (fun m k => fun q => if q = k then paramLists (psIdx k) (locIdx k) else m q) model

theorem applySnapshots_not_mem {κ V : Type} [DecidableEq κ] :
    ∀ (keys : List κ) (psIdx locIdx : κ → ℕ) (paramLists : ℕ → ℕ → V) (model : κ → V)
      (k : κ), k ∉ keys → applySnapshots keys psIdx locIdx paramLists model k = model k
  | [], _, _, _, _, _, _ => rfl
  | a :: keys, psIdx, locIdx, pl, model, k, hk => by
    have hka : k ≠ a := fun h => hk (h ▸ List.mem_cons_self ..)
    show applySnapshots keys psIdx locIdx pl _ k = model k
    rw [applySnapshots_not_mem keys psIdx locIdx pl _ k
      (fun h => hk (List.mem_cons_of_mem _ h))]
    exact if_neg hka

theorem applySnapshots_mem {κ V : Type} [DecidableEq κ] :
    ∀ (keys : List κ) (psIdx locIdx : κ → ℕ) (paramLists : ℕ → ℕ → V) (model : κ → V)
      (k : κ), k ∈ keys →
      applySnapshots keys psIdx locIdx paramLists model k = paramLists (psIdx k) (locIdx k)
  | a :: keys, psIdx, locIdx, pl, model, k, hk => by
    show applySnapshots keys psIdx locIdx pl _ k = _
    by_cases hmem : k ∈ keys
    · exact applySnapshots_mem keys psIdx locIdx pl _ k hmem
    · have hka : k = a := by
        rcases List.mem_cons.mp hk with h | h
        · exact h
        · exact absurd h hmem
      rw [applySnapshots_not_mem keys psIdx locIdx pl _ k hmem]
      show (if k = a then pl (psIdx a) (locIdx a) else model k) = pl (psIdx k) (locIdx k)
      rw [if_pos hka, hka]

/-- C8: each worker step issues exactly one contribution call per shard (the
issued call list pairs every shard index `0 .. ps_num - 1` exactly once with
that shard's gradient slice), and after the fan-in the worker's local value
for every parameter name `k` is exactly the snapshot returned by shard
`param_ps_idx[k]` at position `param_loc_idx[k]`; names outside the lookup are
untouched. -/
theorem claim_C8 {κ V : Type} [DecidableEq κ] (psNum : ℕ) (gradLists : List (List Vec))
    (keys : List κ) (psIdx locIdx : κ → ℕ) (paramLists : ℕ → ℕ → V) (model : κ → V) :
    ((fanOutCalls psNum gradLists).map Prod.fst = List.range psNum ∧
      (fanOutCalls psNum gradLists).length = psNum ∧
      ((fanOutCalls psNum gradLists).map Prod.fst).Nodup ∧
      (∀ i, i < psNum →
        (i, gradLists.getD i []) ∈ fanOutCalls psNum gradLists)) ∧
    (∀ k, k ∈ keys →
      applySnapshots keys psIdx locIdx paramLists model k
        = paramLists (psIdx k) (locIdx k)) ∧
    (∀ k, k ∉ keys →
      applySnapshots keys psIdx locIdx paramLists model k = model k) := by
  refine ⟨⟨?_, ?_, ?_, ?_⟩, ?_, ?_⟩
  · rw [fanOutCalls, List.map_map]
    have hcomp : (Prod.fst ∘ fun i => (i, gradLists.getD i [])) = id := rfl
    rw [hcomp, List.map_id]
  · rw [fanOutCalls, List.length_map, List.length_range]
  · rw [fanOutCalls, List.map_map]
    have hcomp : (Prod.fst ∘ fun i => (i, gradLists.getD i [])) = id := rfl
    rw [hcomp, List.map_id]
    exact List.nodup_range psNum
  · intro i hi
    rw [fanOutCalls]
    exact List.mem_map_of_mem _ (List.mem_range.mpr hi)
  · exact fun k hk => applySnapshots_mem keys psIdx locIdx paramLists model k hk
  · exact fun k hk => applySnapshots_not_mem keys psIdx locIdx paramLists model k hk

theorem claim_C8_witness :
    ((0 : ℕ) ∈ ([0, 1] : List ℕ) ∧ (2 : ℕ) ∉ ([0, 1] : List ℕ)) ∧
    (fanOutCalls 2 [[[1]], [[2]]]).map Prod.fst = List.range 2 ∧
    applySnapshots ([0, 1] : List ℕ) (fun k => k) (fun _ => 0)
        (fun i _ => (i : ℤ)) (fun _ => (7 : ℤ)) 0 = (0 : ℤ) ∧
    applySnapshots ([0, 1] : List ℕ) (fun k => k) (fun _ => 0)
        (fun i _ => (i : ℤ)) (fun _ => (7 : ℤ)) 2 = (7 : ℤ) := by
  have h := claim_C8 2 [[[1]], [[2]]] ([0, 1] : List ℕ)
    (fun k => k) (fun _ => 0) (fun i _ => (i : ℤ)) (fun _ => (7 : ℤ))
  refine ⟨⟨by decide, by decide⟩, h.1.1, ?_, ?_⟩
  · have ha := h.2.1 0 (by decide)
    rw [ha]
    rfl
  · exact h.2.2 2 (by decide)

/-! ## Ring reduce-scatter / all-gather (training_sgd_allreduce.py, lines 338-363)

`Worker.run_worker` runs two `W-1`-iteration loops over `W = ring_wrk_num`
workers.  Communication is a per-edge FIFO: each worker `put`s its outbound
slice into its own `aggr_msg_q` before blocking on
`pre_wrk_rref.get_gradient_slice()`, which dequeues from the predecessor's
queue; so the `i`-th receive of worker `w` is exactly the `i`-th send of
worker `w - 1`.  A sent value is read before the sender's own add of the same
iteration, the reduce-scatter add of iteration `idx` targets slice
`(w - idx - 1) % W` — never a slice still sitting in the queue — and the
all-gather replaces list bindings without mutating queued tensors; hence the
protocol is equivalent to the synchronous per-iteration recurrence embedded
below.  Worker and slice indices live in `Fin (n+1)` with `W = n + 1`
(wrap-around subtraction mirrors Python's `% W`); a slice value is an element
of an additive commutative monoid `α`, matching element-wise tensor addition
(`grad_list_to_add[i] += recv_grad_slice[i]`, line 355). -/

/-- One reduce-scatter iteration (lines 346-355), all workers at once: worker
`w` adds the slice received from its predecessor into its slice
`recv_slice_id = (ring_wrk_id - idx - 1) % W`; the received value is the
predecessor's current copy of that same slice id. -/
def rsStep (n : ℕ) {α : Type} [AddCommMonoid α] (g : Fin (n + 1) → Fin (n + 1) → α)
    (idx : ℕ) : Fin (n + 1) → Fin (n + 1) → α :=
  fun w s => if s = w - (idx : Fin (n + 1)) - 1 then g w s + g (w - 1) s else g w s

/-- One all-gather iteration (lines 356-363): worker `w` replaces its slice
`recv_slice_id = (ring_wrk_id - idx) % W` with the predecessor's current copy
of that slice. -/
def agStep (n : ℕ) {α : Type} [AddCommMonoid α] (g : Fin (n + 1) → Fin (n + 1) → α)
    (idx : ℕ) : Fin (n + 1) → Fin (n + 1) → α :=
  fun w s => if s = w - (idx : Fin (n + 1)) then g (w - 1) s else g w s

/-- The first `k` reduce-scatter iterations (`for idx in range(...)`). -/
def rsIter (n : ℕ) {α : Type} [AddCommMonoid α] (g : Fin (n + 1) → Fin (n + 1) → α)
    (k : ℕ) : Fin (n + 1) → Fin (n + 1) → α :=
  (List.range k).foldl (rsStep n) g

/-- The first `k` all-gather iterations applied to a state `h`. -/
def agIter (n : ℕ) {α : Type} [AddCommMonoid α] (h : Fin (n + 1) → Fin (n + 1) → α)
    (k : ℕ) : Fin (n + 1) → Fin (n + 1) → α :=
  (List.range k).foldl (agStep n) h

/-- The full exchange of one training step: `W - 1 = n` reduce-scatter
iterations followed by `W - 1 = n` all-gather iterations. -/
def ringExchange (n : ℕ) {α : Type} [AddCommMonoid α]
    (g : Fin (n + 1) → Fin (n + 1) → α) : Fin (n + 1) → Fin (n + 1) → α :=
  agIter n (rsIter n g n) n

theorem rsIter_succ (n : ℕ) {α : Type} [AddCommMonoid α]
    (g : Fin (n + 1) → Fin (n + 1) → α) (k : ℕ) :
    rsIter n g (k + 1) = rsStep n (rsIter n g k) k := by
  unfold rsIter
  rw [List.range_succ, List.foldl_append]
  rfl

theorem agIter_succ (n : ℕ) {α : Type} [AddCommMonoid α]
    (h : Fin (n + 1) → Fin (n + 1) → α) (k : ℕ) :
    agIter n h (k + 1) = agStep n (agIter n h k) k := by
  unfold agIter
  rw [List.range_succ, List.foldl_append]
  rfl

theorem fin_cast_inj (n : ℕ) {a b : ℕ} (ha : a ≤ n) (hb : b ≤ n) :
    ((a : Fin (n + 1)) = (b : Fin (n + 1))) ↔ a = b := by
  rw [Fin.ext_iff, Fin.val_cast_of_lt (by omega), Fin.val_cast_of_lt (by omega)]

theorem fin_sub_succ (n : ℕ) (w : Fin (n + 1)) (k : ℕ) :
    w - ((k + 1 : ℕ) : Fin (n + 1)) = (w - 1) - (k : Fin (n + 1)) := by
  rw [Nat.cast_succ, sub_sub]
  ring

theorem fin_sub_sub_one (n : ℕ) (w : Fin (n + 1)) (k : ℕ) :
    w - (k : Fin (n + 1)) - 1 = w - ((k + 1 : ℕ) : Fin (n + 1)) := by
  rw [Nat.cast_succ, sub_sub]

/-- Reduce-scatter invariant: after `k ≤ n` iterations, the slice at ring
distance `j = (w - s) % W` behind worker `w` holds the chain sum of the `j+1`
contributions of workers `w, w-1, ..., w-j` once that slice's single update
round has passed (`1 ≤ j ≤ k`), and the worker's own initial contribution
otherwise. -/
theorem rsIter_spec (n : ℕ) {α : Type} [AddCommMonoid α]
    (g : Fin (n + 1) → Fin (n + 1) → α) :
    ∀ k : ℕ, k ≤ n → ∀ (w : Fin (n + 1)) (j : ℕ), j ≤ n →
      rsIter n g k w (w - (j : Fin (n + 1))) =
        if 1 ≤ j ∧ j ≤ k then
          ∑ t ∈ Finset.range (j + 1), g (w - (t : Fin (n + 1))) (w - (j : Fin (n + 1)))
        else g w (w - (j : Fin (n + 1))) := by
  intro k
  induction k with
  | zero =>
    intro _ w j _
    rw [if_neg (by omega)]
    rfl
  | succ k ih =>
    intro hk1 w j hj
    have hk : k ≤ n := by omega
    rw [rsIter_succ]
    simp only [rsStep]
    have hcond : (w - (j : Fin (n + 1)) = w - (k : Fin (n + 1)) - 1) ↔ j = k + 1 := by
      rw [fin_sub_sub_one, sub_right_inj]
      exact fin_cast_inj n hj (by omega)
    by_cases hjk : j = k + 1
    · rw [if_pos (hcond.mpr hjk)]
      subst hjk
      rw [ih hk w (k + 1) hj, if_neg (by omega)]
      rw [fin_sub_succ n w k, ih hk (w - 1) k (by omega)]
      by_cases hk0 : k = 0
      · subst hk0
        rw [if_neg (by omega), if_pos (by omega)]
        simp only [Finset.sum_range_succ, Finset.sum_range_zero, Nat.cast_zero, Nat.cast_one,
          sub_zero, zero_add]
      · rw [if_pos ⟨by omega, le_refl k⟩, if_pos (by omega)]
        rw [Finset.sum_range_succ'
          (fun t => g (w - (t : Fin (n + 1))) ((w - 1) - (k : Fin (n + 1)))) (k + 1)]
        have hrw : ∀ t : ℕ, w - ((t + 1 : ℕ) : Fin (n + 1)) = (w - 1) - (t : Fin (n + 1)) :=
          fun t => fin_sub_succ n w t
        simp only [hrw, Nat.cast_zero, sub_zero]
        exact add_comm _ _
    · rw [if_neg (fun hc => hjk (hcond.mp hc))]
      rw [ih hk w j hj]
      by_cases h1 : 1 ≤ j ∧ j ≤ k
      · rw [if_pos h1, if_pos ⟨h1.1, by omega⟩]
      · rw [if_neg h1, if_neg (by omega)]

theorem fin_cast_self_add_one (n : ℕ) : ((n : ℕ) : Fin (n + 1)) + 1 = 0 := by
  rw [← Nat.cast_succ]
  exact Fin.natCast_self (n + 1)

theorem fin_sub_self_dist (n : ℕ) (w : Fin (n + 1)) :
    (w - 1) - ((n : ℕ) : Fin (n + 1)) = w := by
  have hz : (1 : Fin (n + 1)) + ((n : ℕ) : Fin (n + 1)) = 0 := by
    rw [add_comm 1 ((n : ℕ) : Fin (n + 1))]
    exact fin_cast_self_add_one n
  rw [sub_sub, hz, sub_zero]

/-- All-gather invariant: once the full value `S s` of slice `s` sits at the
worker just behind it (ring distance `n`), `k ≤ n` all-gather iterations
propagate it to every worker at distance `j < k`; untouched slots keep their
pre-phase value. -/
theorem agIter_spec (n : ℕ) {α : Type} [AddCommMonoid α]
    (h : Fin (n + 1) → Fin (n + 1) → α) (S : Fin (n + 1) → α)
    (hown : ∀ s : Fin (n + 1), h (s - 1) s = S s) :
    ∀ k : ℕ, k ≤ n → ∀ (w : Fin (n + 1)) (j : ℕ), j ≤ n →
      agIter n h k w (w - (j : Fin (n + 1))) =
        if j < k ∨ j = n then S (w - (j : Fin (n + 1))) else h w (w - (j : Fin (n + 1))) := by
  intro k
  induction k with
  | zero =>
    intro _ w j hj
    by_cases hjn : j = n
    · subst hjn
      rw [if_pos (Or.inr rfl)]
      show h w (w - ((j : ℕ) : Fin (j + 1))) = S (w - ((j : ℕ) : Fin (j + 1)))
      have harg : w = (w - ((j : ℕ) : Fin (j + 1))) - 1 := by
        rw [sub_sub, add_comm ((j : ℕ) : Fin (j + 1)) 1]
        rw [show (1 : Fin (j + 1)) + ((j : ℕ) : Fin (j + 1)) = 0 from by
          rw [add_comm 1 ((j : ℕ) : Fin (j + 1))]
          exact fin_cast_self_add_one j]
        rw [sub_zero]
      nth_rewrite 1 [harg]
      exact hown _
    · rw [if_neg (by omega)]
      rfl
  | succ k ih =>
    intro hk1 w j hj
    have hk : k ≤ n := by omega
    rw [agIter_succ]
    simp only [agStep]
    have hcond : (w - (j : Fin (n + 1)) = w - (k : Fin (n + 1))) ↔ j = k := by
      rw [sub_right_inj]
      exact fin_cast_inj n hj (by omega)
    by_cases hjk : j = k
    · rw [if_pos (hcond.mpr hjk)]
      subst hjk
      by_cases hj0 : j = 0
      · subst hj0
        have hw : w - ((0 : ℕ) : Fin (n + 1)) = (w - 1) - ((n : ℕ) : Fin (n + 1)) := by
          rw [fin_sub_self_dist, Nat.cast_zero, sub_zero]
        rw [hw, ih (by omega) (w - 1) n (le_refl n)]
        rw [if_pos (Or.inr rfl), if_pos (Or.inl (by omega))]
      · have hw : w - ((j : ℕ) : Fin (n + 1)) = (w - 1) - ((j - 1 : ℕ) : Fin (n + 1)) := by
          have hj1 : ((j : ℕ) : Fin (n + 1)) = (((j - 1) + 1 : ℕ) : Fin (n + 1)) := by
            congr 1
            omega
          rw [hj1, fin_sub_succ]
        rw [hw, ih (by omega) (w - 1) (j - 1) (by omega)]
        rw [if_pos (Or.inl (by omega)), if_pos (Or.inl (by omega))]
    · rw [if_neg (fun hc => hjk (hcond.mp hc))]
      rw [ih (by omega) w j hj]
      by_cases h1 : j < k ∨ j = n
      · rw [if_pos h1, if_pos (by omega)]
      · rw [if_neg h1, if_neg (by omega)]

/-- After one full reduce-scatter + all-gather cycle, every worker's copy of
every slice is the sum of all `W` workers' original contributions to that
slice, each counted exactly once. -/
theorem ringExchange_sum (n : ℕ) {α : Type} [AddCommMonoid α]
    (g : Fin (n + 1) → Fin (n + 1) → α) (w s : Fin (n + 1)) :
    ringExchange n g w s = ∑ v : Fin (n + 1), g v s := by
  cases n with
  | zero =>
    have hw : w = 0 := by omega
    have hs : ringExchange 0 g w s = g w s := rfl
    rw [hs, Fin.sum_univ_one, hw]
  | succ m =>
    have hown : ∀ s2 : Fin (m + 1 + 1), rsIter (m + 1) g (m + 1) (s2 - 1) s2
        = ∑ v : Fin (m + 1 + 1), g v s2 := by
      intro s2
      have hform := rsIter_spec (m + 1) g (m + 1) (le_refl _) (s2 - 1) (m + 1) (le_refl _)
      have harg : (s2 - 1) - (((m + 1 : ℕ)) : Fin (m + 1 + 1)) = s2 := fin_sub_self_dist _ s2
      rw [harg] at hform
      rw [hform, if_pos ⟨by omega, le_refl _⟩]
      rw [← Fin.sum_univ_eq_sum_range
        (fun t => g ((s2 - 1) - ((t : ℕ) : Fin (m + 1 + 1))) s2) (m + 1 + 1)]
      simp only [Fin.cast_val_eq_self]
      exact Equiv.sum_comp (Equiv.subLeft (s2 - 1)) (fun v => g v s2)
    have hfin := agIter_spec (m + 1) (rsIter (m + 1) g (m + 1))
      (fun s2 => ∑ v : Fin (m + 1 + 1), g v s2) hown (m + 1) (le_refl _)
      w ((w - s).val) (by
        have := Fin.is_le (w - s)
        omega)
    have harg : w - (((w - s).val : ℕ) : Fin (m + 1 + 1)) = s := by
      rw [Fin.cast_val_eq_self, sub_sub_cancel]
    rw [harg] at hfin
    show agIter (m + 1) (rsIter (m + 1) g (m + 1)) (m + 1) w s = _
    rw [hfin, if_pos (by
      have := Fin.is_le (w - s)
      omega)]

/-- C3: for every worker count `W = n + 1 ≥ 1` and every assignment of
per-worker gradient slices, after the `W-1`-iteration reduce-scatter pass and
the `W-1`-iteration all-gather pass every worker holds, in every slice, the
sum of all `W` workers' original contributions to that slice, each counted
exactly once; for `W = 1` both passes run zero iterations and the state is
unchanged; and in the 4-worker instance where worker `i` holds the 4-slice
gradient `[i, i, i, i]`, every worker ends holding `[6, 6, 6, 6]`. -/
theorem claim_C3 :
    (∀ (α : Type) [AddCommMonoid α] (n : ℕ) (g : Fin (n + 1) → Fin (n + 1) → α)
      (w s : Fin (n + 1)), ringExchange n g w s = ∑ v : Fin (n + 1), g v s) ∧
    (∀ (α : Type) [AddCommMonoid α] (g : Fin 1 → Fin 1 → α), ringExchange 0 g = g) ∧
    (∀ w s : Fin 4, ringExchange 3 (fun i _ => (i.val : ℤ)) w s = 6) := by
  refine ⟨?_, ?_, ?_⟩
  · intro α _ n g w s
    exact ringExchange_sum n g w s
  · intro α _ g
    rfl
  · intro w s
    rw [ringExchange_sum 3 (fun i _ => (i.val : ℤ)) w s]
    decide

theorem claim_C3_witness :
    ringExchange 3 (fun (i : Fin 4) (_ : Fin 4) => (i.val : ℤ)) 0 0 = 6 :=
  claim_C3.2.2 0 0

end STRN
